import Mathlib

/-!
Verification development for the cross-database bulk replication engine
(src/sources/core/mysql_to_mssql_manager.py).

The Python source is shallowly embedded as executable Lean functions:

* pure string helpers (statement-terminator stripping, preview-limit
  appending, unresolved-placeholder detection) are embedded directly;
* the destination writer `_mssql_execmany` is embedded as a pure function
  from the incoming row list, the batch size, a map from batch index to the
  driver-reported affected-row count (`cur.rowcount` after the matching
  `executemany` call, `none` meaning the driver reported `None`), and an
  optional failing batch index, to the ordered trace of database events
  (`executemany` calls and commits), the accumulated total and a completion
  flag; a Python exception raised by the j-th `executemany` is modelled by
  `failAt = some j` (the function stops there and the completion flag is
  false, mirroring the re-raise);
* the page loop of `_stream_rows` (repeated `fetchmany(arraysize)`) is
  embedded as `paginate`;
* the stability poll loop `_wait_for_stable_count` is embedded as a
  fuel-indexed loop over an abstract sample sequence `sample : Nat → Int`
  (the value of the i-th COUNT(*) query); exhausting the fuel yields the
  distinguished outcome `LoopOut.diverge`, so nontermination of the Python
  loop is expressed as "the loop diverges for every fuel";
* the control flow of the three transfer entry points (`transfer`,
  `transfer_fetchall`, `transfer_fetchone`) is embedded as trace-producing
  orchestrator models recording, in program order, the session/diagnostic/
  preview/stabilization/read/write phases, with the unresolved-placeholder
  check in the position it occupies in the source.

Python integers are arbitrary precision, so they are embedded as `Int`
(`Nat` for quantities that are list lengths or loop counters in the
source). No overflow modelling is needed.
-/

namespace ETL

/-- Characters stripped by Python's parameterless `str.rstrip()`. -/
def isPyWhitespace (c : Char) : Bool :=
  c = ' ' ∨ c = '\t' ∨ c = '\n' ∨ c = '\r' ∨ c = '\x0b' ∨ c = '\x0c'

/-- Remove the longest trailing run of characters satisfying `p`. -/
def rstripWith (p : Char → Bool) (l : List Char) : List Char :=
  ((l.reverse).dropWhile p).reverse

/-- Embedding of `_strip_semicolon`: `sql.rstrip().rstrip(";")`. -/
def stripSemicolon (s : String) : String :=
  String.mk (rstripWith (fun c => c = ';') (rstripWith isPyWhitespace s.data))

/-- Scan for the reserved placeholder marker, three consecutive pipes. -/
def containsTriplePipe : List Char → Bool
  | '|' :: '|' :: '|' :: _ => true
  | _ :: rest => containsTriplePipe rest
  | [] => false

/-- Embedding of the check `"|||" in select_sql` at the top of each
transfer entry point. -/
def hasMarker (s : String) : Bool :=
  containsTriplePipe s.data

/-- Embedding of `_wrap_unlimited`. -/
def wrapUnlimited (s : String) : String :=
  ("SELECT * FROM (") ++ stripSemicolon s ++ (") AS _x LIMIT 18446744073709551615")

/-- Embedding of the statement built by `_preview_rows`:
the stripped select plus a hard row limit. -/
def previewSql (s : String) (n : Nat) : String :=
  stripSemicolon s ++ (" LIMIT ") ++ toString n

/-- One step of the `fetchmany(arraysize)` page loop of `_stream_rows`,
fuelled by the length of the remaining row list (sufficient whenever the
page size is positive, and faithful to the loop's `if not batch: break`
exit otherwise). `remaining` models the rows the cursor has not yet
delivered; a page is the next `c` of them. -/
def paginateAux (c : Nat) : Nat → List α → List (List α)
  | 0, _ => []
  | fuel + 1, remaining =>
    if (remaining.take c).isEmpty then []
    else remaining.take c :: paginateAux c fuel (remaining.drop c)

/-- Pages produced by the `fetchmany` loop of `_stream_rows` over a source
result set `rows` with page size `c` (`arraysize`). -/
def paginate (c : Nat) (rows : List α) : List (List α) :=
  paginateAux c rows.length rows

/-- Sizes of the successive groups obtained by splitting `n` items into
groups of `c` (specification vocabulary for page and batch size lemmas;
`fuel` bounds the recursion and is irrelevant once it is at least `n`). -/
def pageSizes (c : Nat) (fuel n : Nat) : List Nat :=
  match fuel with
  | 0 => []
  | fuel + 1 => if n = 0 then [] else min c n :: pageSizes c fuel (n - c)

/-- Buffer loop of `_mssql_execmany`: rows are appended to `buf` one at a
time and the buffer is flushed as one batch when `len(buf) >= batch`; a
trailing nonempty buffer becomes the final batch. The batch size is an
`Int` because the Python parameter is an unchecked int. -/
def bufLoop (b : Int) : List α → List α → List (List α)
  | buf, [] => if buf.isEmpty then [] else [buf]
  | buf, r :: rs =>
    if b ≤ ((buf ++ [r]).length : Int) then (buf ++ [r]) :: bufLoop b [] rs
    else bufLoop b (buf ++ [r]) rs

/-- Per-batch inserted-count rule of `_mssql_execmany`:
`cur.rowcount if cur.rowcount is not None and cur.rowcount >= 0 else len(buf)`. -/
def insertedFor (rc : Option Int) (n : Nat) : Int :=
  match rc with
  | some c => if 0 ≤ c then c else (n : Int)
  | none => (n : Int)

/-- Observable destination-side events: one `executemany` call with its
row batch, or one `conn.commit()`. -/
inductive DbEvent (α : Type) where
  | exec (batch : List α)
  | commit
deriving DecidableEq

/-- Outcome of one run of the destination writer: the ordered event trace,
the accumulated `total`, and whether the run completed without raising. -/
structure WriterRun (α : Type) where
  events : List (DbEvent α)
  total : Int
  ok : Bool
deriving DecidableEq

/-- Embedding of the body of `_mssql_execmany`. `i` numbers the
`executemany` calls from 0; `rc i` is the driver-reported rowcount of call
`i`; `failAt = some j` means call `j` raises (the trace stops, no commit,
mirroring the propagated exception). -/
def execmanyGo (b : Int) (rc : Nat → Option Int) (failAt : Option Nat) :
    List α → Nat → List α → Int → List (DbEvent α) → WriterRun α
  | [], i, buf, total, evs =>
    if buf.isEmpty then ⟨evs ++ [.commit], total, true⟩
    else if failAt = some i then ⟨evs, total, false⟩
    else ⟨evs ++ [.exec buf, .commit], total + insertedFor (rc i) buf.length, true⟩
  | r :: rs, i, buf, total, evs =>
    if b ≤ ((buf ++ [r]).length : Int) then
      if failAt = some i then ⟨evs, total, false⟩
      else execmanyGo b rc failAt rs (i + 1) []
        (total + insertedFor (rc i) (buf ++ [r]).length) (evs ++ [.exec (buf ++ [r])])
    else execmanyGo b rc failAt rs i (buf ++ [r]) total evs

/-- One call of `_mssql_execmany` on row sequence `rows` with batch size
`b`. -/
def execmanyRun (b : Int) (rc : Nat → Option Int) (failAt : Option Nat)
    (rows : List α) : WriterRun α :=
  execmanyGo b rc failAt rows 0 [] 0 []

/-- The batches submitted by `executemany` calls in a trace, in order. -/
def execBatches (evs : List (DbEvent α)) : List (List α) :=
  evs.filterMap fun e =>
    match e with
    | .exec bt => some bt
    | .commit => none

/-- Rows durably committed after a trace: a commit makes every previously
executed, not-yet-committed batch durable (the destination connection is
opened with `autocommit=False`). -/
def committedGo : List (DbEvent α) → List α → List α → List α
  | [], _, committed => committed
  | .exec bt :: rest, pending, committed => committedGo rest (pending ++ bt) committed
  | .commit :: rest, pending, committed => committedGo rest [] (committed ++ pending)

/-- Rows durably committed at the end of a trace. -/
def committedRows (evs : List (DbEvent α)) : List α :=
  committedGo evs [] []

/-- Reference summation: total credited over a batch list when the `j`-th
batch overall gets rowcount `rc (i + j)`. -/
def credits (rc : Nat → Option Int) : Nat → List (List α) → Int
  | _, [] => 0
  | i, bt :: rest => insertedFor (rc i) bt.length + credits rc (i + 1) rest

/-- Whether the single `executemany` inside writer call `i` raises, given
the global failing batch index. -/
def failHere (failAt : Option Nat) (i : Nat) : Option Nat :=
  if failAt = some i then some 0 else none

/-- Write side of `transfer_fetchone`: the row loop buffers rows and calls
`_mssql_execmany` once per full buffer of `batch_size` rows (and once for
the trailing partial buffer), so the buffers passed to the writer are
exactly `bufLoop b [] rows`. Each call is one writer run; `rc i` is the
rowcount reported inside call `i` and `failAt = some j` makes call `j`
raise, aborting the remaining calls (the exception propagates). -/
def fetchoneGo (b : Int) (rc : Nat → Option Int) (failAt : Option Nat) :
    List (List α) → Nat → Int → List (DbEvent α) → WriterRun α
  | [], _, total, evs => ⟨evs, total, true⟩
  | ch :: rest, i, total, evs =>
    if (execmanyRun b (fun _ => rc i) (failHere failAt i) ch).ok then
      fetchoneGo b rc failAt rest (i + 1)
        (total + (execmanyRun b (fun _ => rc i) (failHere failAt i) ch).total)
        (evs ++ (execmanyRun b (fun _ => rc i) (failHere failAt i) ch).events)
    else ⟨evs ++ (execmanyRun b (fun _ => rc i) (failHere failAt i) ch).events,
      total, false⟩

/-- Destination-side behaviour of `transfer_fetchone` on the full source
row list. -/
def fetchoneRun (b : Int) (rc : Nat → Option Int) (failAt : Option Nat)
    (rows : List α) : WriterRun α :=
  fetchoneGo b rc failAt (bufLoop b [] rows) 0 0 []

/-- Outcome of the `_wait_for_stable_count` loop. `stable v i` is the
in-loop return of count `v` while processing sample `i` (0-based);
`timeout last` is the fall-through return after the while-condition fails,
carrying the loop variable `last` (the Python then returns
`last if last is not None else 0`); `diverge` means the given fuel was
exhausted before the loop returned. -/
inductive LoopOut where
  | stable (v : Int) (i : Nat)
  | timeout (last : Option Int)
  | diverge
deriving DecidableEq

/-- Embedding of the polling loop of `_wait_for_stable_count`.
`sample i` is the value of the i-th `SELECT COUNT(*)` query; `last`,
`sameFor` and `waited` are the loop variables; the while-condition
`waited <= max_wait` is tested before each iteration, and each iteration
costs one unit of fuel. -/
def waitAux (sample : Nat → Int) (stableFor interval maxWait : Nat)
    (fuel i : Nat) (last : Option Int) (sameFor waited : Nat) : LoopOut :=
  if maxWait < waited then .timeout last
  else
    match fuel with
    | 0 => .diverge
    | fuel + 1 =>
      if some (sample i) = last then
        if stableFor ≤ sameFor + interval then .stable (sample i) i
        else waitAux sample stableFor interval maxWait fuel (i + 1) last
          (sameFor + interval) (waited + interval)
      else
        waitAux sample stableFor interval maxWait fuel (i + 1) (some (sample i)) 0
          (waited + interval)

/-- The `_wait_for_stable_count` loop started from its initial state
(`last = None`, `same_for = 0`, `waited = 0`). -/
def waitForStableCount (sample : Nat → Int) (stableFor interval maxWait fuel : Nat) :
    LoopOut :=
  waitAux sample stableFor interval maxWait fuel 0 none 0 0

/-- The int the Python function returns for a finished loop outcome:
the stabilized count, or `last if last is not None else 0`. -/
def gateValue : LoopOut → Option Int
  | .stable v _ => some v
  | .timeout last => some (last.getD 0)
  | .diverge => none

/-- Phases of a transfer entry point, in program order. -/
inductive OrchStep where
  | sessionSetup
  | sessionDiag (label : String)
  | preview (sql : String) (failed : Bool)
  | stablePoll
  | streamRead
  | bulkRead
  | rowRead
  | batchWrite
deriving DecidableEq

/-- Fatal pre-connection validation failures of a transfer entry point. -/
inductive OrchError where
  | unresolvedPlaceholder
deriving DecidableEq

/-- Control-flow model of `MySQLToMSSQLSA.transfer` (streaming strategy):
the unresolved-placeholder check runs first and aborts before any other
phase; otherwise the phases run in program order. `previewFails` abstracts
an exception inside `_preview_rows`; the `try/except` around the preview
only logs it, so the remaining phases run either way. The chunk and batch
sizes are carried to show they are not validated. -/
def transferModel (selectSql : String) (previewN : Nat) (chunkSize batchSize : Int)
    (previewFails : Bool) : Except OrchError (List OrchStep) :=
  if hasMarker selectSql then .error .unresolvedPlaceholder
  else
    .ok [.sessionSetup, .sessionDiag ("pre-select"),
      .preview (previewSql selectSql previewN) previewFails,
      .stablePoll, .streamRead, .batchWrite, .sessionDiag ("post-insert")]

/-- Control-flow model of `MySQLToMSSQLSA.transfer_fetchall`. -/
def transferFetchallModel (selectSql : String) (previewN : Nat) (batchSize : Int)
    (previewFails : Bool) : Except OrchError (List OrchStep) :=
  if hasMarker selectSql then .error .unresolvedPlaceholder
  else
    .ok [.sessionSetup, .sessionDiag ("pre-select"),
      .preview (previewSql selectSql previewN) previewFails,
      .stablePoll, .bulkRead, .batchWrite, .sessionDiag ("post-insert")]

/-- Control-flow model of `MySQLToMSSQLSA.transfer_fetchone`. -/
def transferFetchoneModel (selectSql : String) (previewN : Nat) (batchSize : Int)
    (previewFails : Bool) : Except OrchError (List OrchStep) :=
  if hasMarker selectSql then .error .unresolvedPlaceholder
  else
    .ok [.sessionSetup, .sessionDiag ("pre-select"),
      .preview (previewSql selectSql previewN) previewFails,
      .stablePoll, .rowRead, .batchWrite, .sessionDiag ("post-insert")]

/-! ## Lemmas about the batching loop -/

theorem bufLoop_flatten (b : Int) : ∀ (l buf : List α), (bufLoop b buf l).flatten = buf ++ l := by
  intro l
  induction l with
  | nil =>
    intro buf
    by_cases h : buf.isEmpty
    · simp [bufLoop, h, List.isEmpty_iff.mp h]
    · simp [bufLoop, h]
  | cons r rs ih =>
    intro buf
    simp only [bufLoop]
    split
    · simp [ih]
    · simp [ih]

theorem bufLoop_length (n : Nat) (hn : 0 < n) :
    ∀ (l buf : List α), buf.length < n →
      (bufLoop (n : Int) buf l).length = (buf.length + l.length + n - 1) / n := by
  intro l
  induction l with
  | nil =>
    intro buf hbuf
    by_cases h : buf.isEmpty
    · have hb0 : buf = [] := List.isEmpty_iff.mp h
      subst hb0
      simp only [bufLoop, List.isEmpty_nil, if_true, List.length_nil]
      have : (0 + 0 + n - 1) = n - 1 := by omega
      rw [this, Nat.div_eq_of_lt (by omega)]
    · have hb1 : 1 ≤ buf.length := by
        cases buf with
        | nil => simp at h
        | cons x xs => simp
      simp only [bufLoop, h, Bool.false_eq_true, if_false, List.length_cons,
        List.length_nil]
      have h1 : 1 * n ≤ buf.length + 0 + n - 1 := by omega
      have h2 : buf.length + 0 + n - 1 < (1 + 1) * n := by omega
      rw [Nat.div_eq_of_lt_le h1 h2]
  | cons r rs ih =>
    intro buf hbuf
    simp only [bufLoop]
    split
    · next hflush =>
      have hlen : buf.length + 1 = n := by
        simp only [List.length_append, List.length_cons, List.length_nil] at hflush
        omega
      have ihz := ih [] (by simp only [List.length_nil]; omega)
      simp only [List.length_nil, Nat.zero_add] at ihz
      simp only [List.length_cons, ihz]
      have hnum : buf.length + (rs.length + 1) + n - 1 = (rs.length + n - 1) + n := by omega
      rw [hnum, Nat.add_div_right _ hn]
    · next hnoflush =>
      have hlt : buf.length + 1 < n := by
        simp only [List.length_append, List.length_cons, List.length_nil] at hnoflush
        omega
      have ihb := ih (buf ++ [r]) (by simp only [List.length_append,
        List.length_cons, List.length_nil]; omega)
      simp only [List.length_append, List.length_cons, List.length_nil] at ihb
      rw [ihb]
      simp only [List.length_cons]
      have hnum : buf.length + (0 + 1) + rs.length + n - 1
          = buf.length + (rs.length + 1) + n - 1 := by omega
      rw [hnum]

theorem bufLoop_shape (n : Nat) :
    ∀ (l buf : List α), buf.length < n →
      ∀ ch ∈ bufLoop (n : Int) buf l, ch ≠ [] ∧ ch.length ≤ n := by
  intro l
  induction l with
  | nil =>
    intro buf hbuf ch hch
    by_cases h : buf.isEmpty
    · simp [bufLoop, h] at hch
    · simp only [bufLoop, h, Bool.false_eq_true, if_false, List.mem_singleton] at hch
      subst hch
      exact ⟨fun hnil => by simp [hnil] at h, by omega⟩
  | cons r rs ih =>
    intro buf hbuf ch hch
    simp only [bufLoop] at hch
    split at hch
    · next hflush =>
      have hlen : buf.length + 1 = n := by
        simp only [List.length_append, List.length_cons, List.length_nil] at hflush
        omega
      rcases List.mem_cons.mp hch with hch | hch
      · subst hch
        refine ⟨by simp, ?_⟩
        simp only [List.length_append, List.length_cons, List.length_nil]
        omega
      · exact ih [] (by simp only [List.length_nil]; omega) ch hch
    · next hnoflush =>
      have hlt : buf.length + 1 < n := by
        simp only [List.length_append, List.length_cons, List.length_nil] at hnoflush
        omega
      exact ih (buf ++ [r]) (by simp; omega) ch hch

theorem bufLoop_single (n : Nat) :
    ∀ (l buf : List α), 0 < buf.length + l.length → buf.length + l.length ≤ n →
      bufLoop (n : Int) buf l = [buf ++ l] := by
  intro l
  induction l with
  | nil =>
    intro buf hpos _
    have : ¬ buf.isEmpty := by
      cases buf with
      | nil => simp at hpos
      | cons x xs => simp
    simp [bufLoop, this]
  | cons r rs ih =>
    intro buf hpos hle
    simp only [List.length_cons] at hle
    simp only [bufLoop]
    split
    · next hflush =>
      have hlen : buf.length + 1 = n ∧ rs = [] := by
        simp only [List.length_append, List.length_cons, List.length_nil] at hflush
        have h1 : n ≤ buf.length + 1 := by omega
        have h2 : rs.length = 0 := by omega
        exact ⟨by omega, List.eq_nil_of_length_eq_zero h2⟩
      rw [hlen.2]
      simp [bufLoop]
    · next hnoflush =>
      rw [ih (buf ++ [r]) (by simp) (by simp only [List.length_append,
        List.length_cons, List.length_nil]; omega)]
      simp

theorem bufLoop_nonpos (b : Int) (hb : b ≤ 0) :
    ∀ l : List α, bufLoop b [] l = l.map (fun r => [r]) := by
  intro l
  induction l with
  | nil => simp [bufLoop]
  | cons r rs ih =>
    simp only [bufLoop, List.nil_append, List.length_cons, List.length_nil]
    rw [if_pos (by omega : b ≤ ((0 + 1 : Nat) : Int))]
    simp [ih]

/-! ## Lemmas about the page loop of the streaming reader -/

theorem paginateAux_flatten (c : Nat) (hc : 0 < c) :
    ∀ (fuel : Nat) (l : List α), l.length ≤ fuel →
      (paginateAux c fuel l).flatten = l := by
  intro fuel
  induction fuel with
  | zero =>
    intro l hl
    have : l = [] := List.eq_nil_of_length_eq_zero (by omega)
    subst this
    simp [paginateAux]
  | succ fuel ih =>
    intro l hl
    by_cases h : (l.take c).isEmpty
    · have : l = [] := by
        rcases List.take_eq_nil_iff.mp (List.isEmpty_iff.mp h) with h1 | h1
        · omega
        · exact h1
      subst this
      simp [paginateAux]
    · have hne : l ≠ [] := by
        intro hnil
        subst hnil
        simp at h
      simp only [paginateAux, h, Bool.false_eq_true, if_false, List.flatten_cons]
      rw [ih (l.drop c) ?_]
      · exact List.take_append_drop c l
      · have h1 : 1 ≤ l.length := by
          cases l with
          | nil => simp at hne
          | cons x xs => simp
        simp only [List.length_drop]
        omega

theorem paginate_flatten (c : Nat) (hc : 0 < c) (l : List α) :
    (paginate c l).flatten = l :=
  paginateAux_flatten c hc l.length l le_rfl

/-! ## Lemmas about the destination writer -/

theorem execmanyGo_none (b : Int) (rc : Nat → Option Int) :
    ∀ (l buf : List α) (i : Nat) (total : Int) (evs : List (DbEvent α)),
      execmanyGo b rc none l i buf total evs
        = ⟨evs ++ (bufLoop b buf l).map DbEvent.exec ++ [DbEvent.commit],
           total + credits rc i (bufLoop b buf l), true⟩ := by
  intro l
  induction l with
  | nil =>
    intro buf i total evs
    by_cases h : buf.isEmpty
    · simp [execmanyGo, bufLoop, h, credits]
    · simp [execmanyGo, bufLoop, h, credits]
  | cons r rs ih =>
    intro buf i total evs
    simp only [execmanyGo, bufLoop]
    split
    · next hflush =>
      rw [if_neg (by simp : ¬ (none = some i))]
      rw [ih]
      simp [credits, add_assoc]
    · next hnoflush =>
      exact ih (buf ++ [r]) i total evs

theorem execmanyRun_none (b : Int) (rc : Nat → Option Int) (rows : List α) :
    execmanyRun b rc none rows
      = ⟨(bufLoop b [] rows).map DbEvent.exec ++ [DbEvent.commit],
         credits rc 0 (bufLoop b [] rows), true⟩ := by
  unfold execmanyRun
  rw [execmanyGo_none]
  simp

theorem credits_fallback (rc : Nat → Option Int) (hrc : ∀ j v, rc j = some v → v < 0) :
    ∀ (bts : List (List α)) (i : Nat),
      credits rc i bts = ((bts.map List.length).sum : Int) := by
  intro bts
  induction bts with
  | nil => intro i; simp [credits]
  | cons bt rest ih =>
    intro i
    simp only [credits, List.map_cons, List.sum_cons, ih (i + 1)]
    have hins : insertedFor (rc i) bt.length = (bt.length : Int) := by
      cases hrci : rc i with
      | none => simp [insertedFor]
      | some v =>
        have hv := hrc i v hrci
        simp only [insertedFor]
        rw [if_neg (by omega)]
    rw [hins]
    push_cast
    ring

theorem credits_le (rc : Nat → Option Int) :
    ∀ (bts : List (List α)) (i : Nat),
      (∀ j, j < bts.length → ∀ v, rc (i + j) = some v →
        v ≤ ((bts.getD j []).length : Int)) →
      credits rc i bts ≤ ((bts.map List.length).sum : Int) := by
  intro bts
  induction bts with
  | nil => intro i _; simp [credits]
  | cons bt rest ih =>
    intro i hrc
    simp only [credits, List.map_cons, List.sum_cons]
    have h0 : insertedFor (rc i) bt.length ≤ (bt.length : Int) := by
      cases hrci : rc i with
      | none => simp [insertedFor]
      | some v =>
        have hv := hrc 0 (by simp) v (by simpa using hrci)
        simp only [List.getD_cons_zero] at hv
        simp only [insertedFor]
        split
        · exact hv
        · exact le_refl _
    have h1 : credits rc (i + 1) rest ≤ ((rest.map List.length).sum : Int) := by
      apply ih (i + 1)
      intro j hj v hv
      have := hrc (j + 1) (by simpa using Nat.succ_lt_succ hj) v
        (by rw [show i + 1 + j = i + (j + 1) from by omega] at hv; exact hv)
      simpa using this
    push_cast
    push_cast at h0 h1
    omega

theorem execBatches_of (bts : List (List α)) (rest : List (DbEvent α)) :
    execBatches (bts.map DbEvent.exec ++ rest) = bts ++ execBatches rest := by
  induction bts with
  | nil => simp
  | cons bt r ih => simp [execBatches] at ih ⊢; exact ih

theorem execBatches_commit (rest : List (DbEvent α)) :
    execBatches (DbEvent.commit :: rest) = execBatches rest := by
  simp [execBatches]

theorem execBatches_nil : execBatches ([] : List (DbEvent α)) = [] := by
  simp [execBatches]

/-! ## Lemmas about commit visibility -/

theorem committedGo_execs (bts : List (List α)) :
    ∀ (rest : List (DbEvent α)) (pending committed : List α),
      committedGo (bts.map DbEvent.exec ++ rest) pending committed
        = committedGo rest (pending ++ bts.flatten) committed := by
  induction bts with
  | nil => intro rest pending committed; simp
  | cons bt r ih =>
    intro rest pending committed
    rw [List.map_cons, List.cons_append]
    rw [show committedGo (DbEvent.exec bt :: (List.map DbEvent.exec r ++ rest))
          pending committed
        = committedGo (List.map DbEvent.exec r ++ rest) (pending ++ bt) committed
        from rfl]
    rw [ih, List.flatten_cons, ← List.append_assoc]

theorem committedGo_no_commit (bts : List (List α)) (pending committed : List α) :
    committedGo (bts.map DbEvent.exec) pending committed = committed := by
  have := committedGo_execs bts [] pending committed
  rw [List.append_nil] at this
  rw [this]
  rfl

theorem committedRows_exec_commit (bts : List (List α)) :
    committedRows (bts.map DbEvent.exec ++ [DbEvent.commit]) = bts.flatten := by
  unfold committedRows
  rw [committedGo_execs bts [DbEvent.commit] [] []]
  simp [committedGo]

theorem committedGo_pairs (bts : List (List α)) :
    ∀ (rest : List (DbEvent α)) (committed : List α),
      committedGo ((bts.map fun ch => [DbEvent.exec ch, DbEvent.commit]).flatten ++ rest)
          [] committed
        = committedGo rest [] (committed ++ bts.flatten) := by
  induction bts with
  | nil => intro rest committed; simp
  | cons bt r ih =>
    intro rest committed
    rw [List.map_cons, List.flatten_cons, List.append_assoc]
    rw [show committedGo ([DbEvent.exec bt, DbEvent.commit]
          ++ ((List.map (fun ch => [DbEvent.exec ch, DbEvent.commit]) r).flatten ++ rest))
          [] committed
        = committedGo
            ((List.map (fun ch => [DbEvent.exec ch, DbEvent.commit]) r).flatten ++ rest)
            [] (committed ++ bt)
        from rfl]
    rw [ih rest (committed ++ bt), List.flatten_cons, ← List.append_assoc]

/-! ## Failure paths of the writer -/

theorem execmanyGo_fail (b : Int) (rc : Nat → Option Int) (j : Nat) :
    ∀ (l buf : List α) (i : Nat) (total : Int) (evs : List (DbEvent α)),
      i ≤ j → j - i < (bufLoop b buf l).length →
      execmanyGo b rc (some j) l i buf total evs
        = ⟨evs ++ ((bufLoop b buf l).take (j - i)).map DbEvent.exec,
           total + credits rc i ((bufLoop b buf l).take (j - i)), false⟩ := by
  intro l
  induction l with
  | nil =>
    intro buf i total evs hij hlt
    by_cases h : buf.isEmpty
    · simp [bufLoop, h] at hlt
    · simp only [bufLoop, h, Bool.false_eq_true, if_false, List.length_cons,
        List.length_nil] at hlt
      have hji : j = i := by omega
      subst hji
      simp [execmanyGo, h, bufLoop, credits]
  | cons r rs ih =>
    intro buf i total evs hij hlt
    simp only [execmanyGo]
    split
    · next hflush =>
      have hbl : bufLoop b buf (r :: rs) = (buf ++ [r]) :: bufLoop b [] rs := by
        simp only [bufLoop]
        rw [if_pos hflush]
      rw [hbl] at hlt
      rw [hbl]
      by_cases hji : j = i
      · subst hji
        rw [if_pos rfl]
        simp [credits]
      · rw [if_neg (by simp only [Option.some.injEq]; omega)]
        rw [ih [] (i + 1) (total + insertedFor (rc i) (buf ++ [r]).length)
          (evs ++ [DbEvent.exec (buf ++ [r])]) (by omega)
          (by simp only [List.length_cons] at hlt; omega)]
        have hsub : j - i = (j - (i + 1)) + 1 := by omega
        rw [hsub, List.take_succ_cons, List.map_cons, credits]
        simp [List.append_assoc, add_assoc]
    · next hnoflush =>
      have hbl : bufLoop b buf (r :: rs) = bufLoop b (buf ++ [r]) rs := by
        simp only [bufLoop]
        rw [if_neg hnoflush]
      rw [hbl] at hlt
      rw [hbl]
      exact ih (buf ++ [r]) i total evs hij hlt

theorem execmanyRun_single_ok (n : Nat) (rc1 : Nat → Option Int) (ch : List α)
    (hne : ch ≠ []) (hle : ch.length ≤ n) :
    execmanyRun (n : Int) rc1 none ch
      = ⟨[DbEvent.exec ch, DbEvent.commit], insertedFor (rc1 0) ch.length, true⟩ := by
  rw [execmanyRun_none]
  rw [bufLoop_single n ch []
    (by cases ch with | nil => simp at hne | cons x xs => simp)
    (by simpa using hle)]
  simp [credits]

theorem execmanyRun_single_fail (n : Nat) (rc1 : Nat → Option Int) (ch : List α)
    (hne : ch ≠ []) (hle : ch.length ≤ n) :
    execmanyRun (n : Int) rc1 (some 0) ch = ⟨[], 0, false⟩ := by
  unfold execmanyRun
  rw [execmanyGo_fail (n : Int) rc1 0 ch [] 0 0 [] le_rfl ?_]
  · simp [credits]
  · rw [bufLoop_single n ch []
      (by cases ch with | nil => simp at hne | cons x xs => simp)
      (by simpa using hle)]
    simp

theorem fetchoneGo_fail (n : Nat) (rc : Nat → Option Int) (j : Nat) :
    ∀ (chunks : List (List α)) (i : Nat) (total : Int) (evs : List (DbEvent α)),
      (∀ ch ∈ chunks, ch ≠ [] ∧ ch.length ≤ n) → i ≤ j → j - i < chunks.length →
      fetchoneGo (n : Int) rc (some j) chunks i total evs
        = ⟨evs ++ ((chunks.take (j - i)).map
              fun ch => [DbEvent.exec ch, DbEvent.commit]).flatten,
           total + credits rc i (chunks.take (j - i)), false⟩ := by
  intro chunks
  induction chunks with
  | nil =>
    intro i total evs _ hij hlt
    simp at hlt
  | cons ch rest ih =>
    intro i total evs hch hij hlt
    have hch0 := hch ch (by simp)
    by_cases hji : j = i
    · subst hji
      have hfh : failHere (some j) j = some 0 := by simp [failHere]
      simp only [fetchoneGo, hfh]
      rw [execmanyRun_single_fail n (fun _ => rc j) ch hch0.1 hch0.2]
      rw [if_neg (by simp)]
      simp [credits]
    · have hfh : failHere (some j) i = none := by
        unfold failHere
        rw [if_neg (fun h => hji (Option.some.inj h))]
      simp only [fetchoneGo, hfh]
      rw [execmanyRun_single_ok n (fun _ => rc i) ch hch0.1 hch0.2]
      rw [if_pos rfl]
      rw [ih (i + 1) (total + insertedFor (rc i) ch.length)
        (evs ++ [DbEvent.exec ch, DbEvent.commit])
        (fun c hc => hch c (by simp [hc])) (by omega)
        (by simp only [List.length_cons] at hlt; omega)]
      have hsub : j - i = (j - (i + 1)) + 1 := by omega
      rw [hsub, List.take_succ_cons, List.map_cons, List.flatten_cons, credits]
      simp [List.append_assoc, add_assoc]

/-! ## Lemmas about the stability-gate poll loop -/

theorem waitAux_timeout (sample : Nat → Int) (stableFor interval maxWait : Nat)
    (fuel i : Nat) (last : Option Int) (s w : Nat) (hw : maxWait < w) :
    waitAux sample stableFor interval maxWait fuel i last s w = .timeout last := by
  rw [waitAux.eq_def, if_pos hw]

theorem waitAux_zero (sample : Nat → Int) (stableFor interval maxWait : Nat)
    (i : Nat) (last : Option Int) (s w : Nat) (hw : ¬ maxWait < w) :
    waitAux sample stableFor interval maxWait 0 i last s w = .diverge := by
  rw [waitAux.eq_def, if_neg hw]

theorem waitAux_succ (sample : Nat → Int) (stableFor interval maxWait : Nat)
    (fuel i : Nat) (last : Option Int) (s w : Nat) (hw : ¬ maxWait < w) :
    waitAux sample stableFor interval maxWait (fuel + 1) i last s w
      = if some (sample i) = last then
          (if stableFor ≤ s + interval then LoopOut.stable (sample i) i
           else waitAux sample stableFor interval maxWait fuel (i + 1) last
             (s + interval) (w + interval))
        else waitAux sample stableFor interval maxWait fuel (i + 1)
          (some (sample i)) 0 (w + interval) := by
  rw [waitAux.eq_def, if_neg hw]

theorem waitAux_walk (sample : Nat → Int) (stableFor interval maxWait : Nat) :
    ∀ (d : Nat), 1 ≤ d → ∀ (fuel i : Nat) (last : Option Int),
      d ≤ fuel →
      (i + d - 1) * interval ≤ maxWait →
      some (sample i) ≠ last →
      (∀ j, i < j → j < i + d → sample j ≠ sample (j - 1)) →
      waitAux sample stableFor interval maxWait fuel i last 0 (i * interval)
        = waitAux sample stableFor interval maxWait (fuel - d) (i + d)
            (some (sample (i + d - 1))) 0 ((i + d) * interval) := by
  intro d
  induction d with
  | zero => omega
  | succ d ih =>
    intro _ fuel i last hfuel hW hdiff hstep
    obtain ⟨f, rfl⟩ : ∃ f, fuel = f + 1 := ⟨fuel - 1, by omega⟩
    have hw : ¬ maxWait < i * interval := by
      have : i * interval ≤ (i + (d + 1) - 1) * interval :=
        Nat.mul_le_mul_right interval (by omega)
      omega
    rw [waitAux_succ sample stableFor interval maxWait f i last 0 (i * interval) hw]
    rw [if_neg (fun h => hdiff h)]
    rcases Nat.eq_zero_or_pos d with hd0 | hd1
    · subst hd0
      have h1 : i * interval + interval = (i + 1) * interval := by ring
      rw [h1]
      have h2 : f + 1 - 1 = f := by omega
      have h3 : i + 1 - 1 = i := by omega
      rw [h2, h3]
    · have h1 : i * interval + interval = (i + 1) * interval := by ring
      rw [h1]
      have := ih hd1 f (i + 1) (some (sample i)) (by omega)
        (by have : (i + 1 + d - 1) * interval = (i + (d + 1) - 1) * interval := by
              congr 1
              omega
            omega)
        (by have hne := hstep (i + 1) (by omega) (by omega)
            simp only [Nat.add_sub_cancel] at hne
            exact fun h => hne (Option.some.inj h))
        (by intro j hj1 hj2
            exact hstep j (by omega) (by omega))
      rw [this]
      have e1 : f - d = f + 1 - (d + 1) := by omega
      have e2 : i + 1 + d = i + (d + 1) := by omega
      have e3 : i + 1 + d - 1 = i + (d + 1) - 1 := by omega
      rw [e1, e3, e2]

theorem waitAux_stab (sample : Nat → Int) (stableFor interval maxWait : Nat) (V : Int) :
    ∀ (r : Nat), 1 ≤ r → ∀ (fuel i s w : Nat),
      r ≤ fuel →
      w + (r - 1) * interval ≤ maxWait →
      (∀ j, i ≤ j → sample j = V) →
      stableFor ≤ s + r * interval →
      (∀ q, 1 ≤ q → q < r → ¬ stableFor ≤ s + q * interval) →
      waitAux sample stableFor interval maxWait fuel i (some V) s w
        = .stable V (i + r - 1) := by
  intro r
  induction r with
  | zero => omega
  | succ r ih =>
    intro _ fuel i s w hfuel hW hconst hle hmin
    rw [Nat.add_sub_cancel] at hW
    obtain ⟨f, rfl⟩ : ∃ f, fuel = f + 1 := ⟨fuel - 1, by omega⟩
    have hw : ¬ maxWait < w := by omega
    rw [waitAux_succ sample stableFor interval maxWait f i (some V) s w hw]
    rw [hconst i le_rfl]
    rw [if_pos rfl]
    rcases Nat.eq_zero_or_pos r with hr0 | hr1
    · subst hr0
      rw [if_pos (by omega)]
      congr 1
    · have hmin1 := hmin 1 le_rfl (by omega)
      rw [one_mul] at hmin1
      rw [if_neg hmin1]
      have emul : (r + 1) * interval = r * interval + interval := Nat.succ_mul r interval
      have emul2 : r * interval = (r - 1) * interval + interval := by
        conv_lhs => rw [show r = (r - 1) + 1 from by omega]
        exact Nat.succ_mul (r - 1) interval
      have hrec := ih hr1 f (i + 1) (s + interval) (w + interval)
        (by omega)
        (by omega)
        (fun j hj => hconst j (by omega))
        (by omega)
        (by intro q hq1 hq2
            have hm := hmin (q + 1) (by omega) (by omega)
            have emq : (q + 1) * interval = q * interval + interval :=
              Nat.succ_mul q interval
            omega)
      rw [hrec]
      congr 1
      omega

theorem waitAux_ne_diverge (sample : Nat → Int) (stableFor interval maxWait : Nat) :
    ∀ (fuel i : Nat) (last : Option Int) (s w : Nat),
      maxWait < w + fuel * interval →
      waitAux sample stableFor interval maxWait fuel i last s w ≠ .diverge := by
  intro fuel
  induction fuel with
  | zero =>
    intro i last s w hbound
    rw [waitAux_timeout sample stableFor interval maxWait 0 i last s w
      (by simpa using hbound)]
    simp
  | succ f ih =>
    intro i last s w hbound
    by_cases hw : maxWait < w
    · rw [waitAux_timeout sample stableFor interval maxWait (f + 1) i last s w hw]
      simp
    · rw [waitAux_succ sample stableFor interval maxWait f i last s w hw]
      have emul : (f + 1) * interval = f * interval + interval := Nat.succ_mul f interval
      split
      · split
        · simp
        · exact ih (i + 1) last (s + interval) (w + interval) (by omega)
      · exact ih (i + 1) (some (sample i)) 0 (w + interval) (by omega)

theorem waitAux_diverge_zero_interval (sample : Nat → Int) (stableFor maxWait : Nat)
    (hchg : ∀ j, sample (j + 1) ≠ sample j) :
    ∀ (fuel i : Nat) (last : Option Int) (s w : Nat),
      w ≤ maxWait → some (sample i) ≠ last →
      waitAux sample stableFor 0 maxWait fuel i last s w = .diverge := by
  intro fuel
  induction fuel with
  | zero =>
    intro i last s w hw hne
    exact waitAux_zero sample stableFor 0 maxWait i last s w (by omega)
  | succ f ih =>
    intro i last s w hw hne
    rw [waitAux_succ sample stableFor 0 maxWait f i last s w (by omega)]
    rw [if_neg hne]
    rw [Nat.add_zero]
    exact ih (i + 1) (some (sample i)) 0 w hw
      (fun h => hchg i (Option.some.inj h))

theorem waitAux_ne_timeout_none (sample : Nat → Int) (stableFor interval maxWait : Nat) :
    ∀ (fuel i : Nat) (v : Int) (s w : Nat),
      waitAux sample stableFor interval maxWait fuel i (some v) s w ≠ .timeout none := by
  intro fuel
  induction fuel with
  | zero =>
    intro i v s w
    by_cases hw : maxWait < w
    · rw [waitAux_timeout sample stableFor interval maxWait 0 i (some v) s w hw]
      simp
    · rw [waitAux_zero sample stableFor interval maxWait i (some v) s w hw]
      simp
  | succ f ih =>
    intro i v s w
    by_cases hw : maxWait < w
    · rw [waitAux_timeout sample stableFor interval maxWait (f + 1) i (some v) s w hw]
      simp
    · rw [waitAux_succ sample stableFor interval maxWait f i (some v) s w hw]
      split
      · split
        · simp
        · exact ih (i + 1) v (s + interval) (w + interval)
      · exact ih (i + 1) (sample i) 0 (w + interval)

/-! ## Page and batch size shapes -/

theorem pageSizes_zero_fuel (c n : Nat) : pageSizes c 0 n = [] := rfl

theorem pageSizes_succ (c f n : Nat) :
    pageSizes c (f + 1) n
      = if n = 0 then [] else min c n :: pageSizes c f (n - c) := rfl

theorem pageSizes_zero (c : Nat) : ∀ f, pageSizes c f 0 = [] := by
  intro f
  cases f with
  | zero => rfl
  | succ f => rw [pageSizes_succ, if_pos rfl]

theorem pageSizes_fuel (c : Nat) (hc : 0 < c) :
    ∀ (f t : Nat), t ≤ f → pageSizes c f t = pageSizes c t t := by
  intro f
  induction f using Nat.strong_induction_on with
  | _ f ih =>
    intro t ht
    cases t with
    | zero => rw [pageSizes_zero, pageSizes_zero]
    | succ t =>
      obtain ⟨g, rfl⟩ : ∃ g, f = g + 1 := ⟨f - 1, by omega⟩
      rw [pageSizes_succ, pageSizes_succ]
      rw [if_neg (by omega), if_neg (by omega)]
      rw [ih g (by omega) (t + 1 - c) (by omega)]
      rw [ih t (by omega) (t + 1 - c) (by omega)]

theorem paginateAux_map_length (c : Nat) (hc : 0 < c) :
    ∀ (fuel : Nat) (l : List α), l.length ≤ fuel →
      (paginateAux c fuel l).map List.length = pageSizes c fuel l.length := by
  intro fuel
  induction fuel with
  | zero =>
    intro l hl
    have : l = [] := List.eq_nil_of_length_eq_zero (by omega)
    subst this
    rfl
  | succ fuel ih =>
    intro l hl
    by_cases h : (l.take c).isEmpty
    · have hnil : l = [] := by
        rcases List.take_eq_nil_iff.mp (List.isEmpty_iff.mp h) with h1 | h1
        · omega
        · exact h1
      subst hnil
      simp only [paginateAux, List.take_nil, List.isEmpty_nil, if_true, List.map_nil,
        List.length_nil]
      rw [pageSizes_zero]
    · have hne : l ≠ [] := by
        intro hnil
        subst hnil
        simp at h
      have h1 : 1 ≤ l.length := by
        cases l with
        | nil => simp at hne
        | cons x xs => simp
      simp only [paginateAux, h, Bool.false_eq_true, if_false, List.map_cons]
      rw [List.length_take, ih (l.drop c) (by simp only [List.length_drop]; omega)]
      rw [List.length_drop]
      rw [pageSizes_succ, if_neg (by omega)]

theorem paginate_map_length (c : Nat) (hc : 0 < c) (l : List α) :
    (paginate c l).map List.length = pageSizes c l.length l.length :=
  paginateAux_map_length c hc l.length l le_rfl

theorem bufLoop_map_length (n : Nat) (hn : 0 < n) :
    ∀ (l buf : List α), buf.length < n →
      (bufLoop (n : Int) buf l).map List.length
        = pageSizes n (buf.length + l.length) (buf.length + l.length) := by
  intro l
  induction l with
  | nil =>
    intro buf hbuf
    by_cases h : buf.isEmpty
    · have hb0 : buf = [] := List.isEmpty_iff.mp h
      subst hb0
      rfl
    · have hb1 : 1 ≤ buf.length := by
        cases buf with
        | nil => simp at h
        | cons x xs => simp
      simp only [bufLoop, h, Bool.false_eq_true, if_false, List.map_cons,
        List.map_nil, List.length_nil, Nat.add_zero]
      obtain ⟨t, ht⟩ : ∃ t, buf.length = t + 1 := ⟨buf.length - 1, by omega⟩
      rw [ht, pageSizes_succ, if_neg (by omega)]
      rw [show t + 1 - n = 0 from by omega, pageSizes_zero]
      rw [Nat.min_eq_right (by omega)]
  | cons r rs ih =>
    intro buf hbuf
    simp only [bufLoop]
    split
    · next hflush =>
      have hlen : buf.length + 1 = n := by
        simp only [List.length_append, List.length_cons, List.length_nil] at hflush
        omega
      have ihz := ih [] (by simp only [List.length_nil]; omega)
      simp only [List.length_nil, Nat.zero_add] at ihz
      simp only [List.map_cons, ihz, List.length_append, List.length_cons,
        List.length_nil]
      rw [show buf.length + (rs.length + 1) = (n + rs.length - 1) + 1 from by omega]
      rw [pageSizes_succ, if_neg (by omega)]
      rw [Nat.min_eq_left (by omega)]
      rw [show (n + rs.length - 1) + 1 - n = rs.length from by omega]
      rw [pageSizes_fuel n hn (n + rs.length - 1) rs.length (by omega)]
      rw [show buf.length + (0 + 1) = n from by omega]
    · next hnoflush =>
      have hlt : buf.length + 1 < n := by
        simp only [List.length_append, List.length_cons, List.length_nil] at hnoflush
        omega
      have ihb := ih (buf ++ [r]) (by simp only [List.length_append,
        List.length_cons, List.length_nil]; omega)
      rw [ihb]
      simp only [List.length_append, List.length_cons, List.length_nil]
      rw [show buf.length + (0 + 1) + rs.length = buf.length + (rs.length + 1) from
        by omega]

/-! ## Claim theorems -/

/-- C1: for every positive batch size and page size and every finite source
row sequence R, the streaming pipeline reads R page by page, submits to the
destination writer exactly the rows of R in source order, and groups them
into ceil(len(R)/batchSize) batched insert calls. -/
theorem c1_stream_transfer_batches {α : Type} (R : List α) (n c : Nat)
    (rc : Nat → Option Int) (hb : 0 < n) (hc : 0 < c) :
    (paginate c R).flatten = R ∧
    (execBatches (execmanyRun (n : Int) rc none
        ((paginate c R).flatten)).events).flatten = R ∧
    (execBatches (execmanyRun (n : Int) rc none
        ((paginate c R).flatten)).events).length = (R.length + n - 1) / n := by
  have hp := paginate_flatten c hc R
  rw [hp]
  refine ⟨rfl, ?_, ?_⟩
  · rw [execmanyRun_none]
    show (execBatches ((bufLoop (n : Int) [] R).map DbEvent.exec
      ++ [DbEvent.commit])).flatten = R
    rw [execBatches_of, execBatches_commit, execBatches_nil, List.append_nil]
    simpa using bufLoop_flatten (n : Int) R []
  · rw [execmanyRun_none]
    show (execBatches ((bufLoop (n : Int) [] R).map DbEvent.exec
      ++ [DbEvent.commit])).length = (R.length + n - 1) / n
    rw [execBatches_of, execBatches_commit, execBatches_nil, List.append_nil]
    have := bufLoop_length n hb R [] (by simpa using hb)
    simpa using this

/-- C1 witness: scenario A. 2500 source rows with page size 1000 and batch
size 500: the streaming read yields pages of sizes 1000, 1000, 500; the
writer issues 5 batches of 500 rows; all 2500 rows arrive in order. -/
theorem c1_witness :
    (paginate 1000 (List.range 2500)).map List.length = [1000, 1000, 500] ∧
    ((List.range 2500).length + 500 - 1) / 500 = 5 ∧
    (execBatches (execmanyRun (500 : Int) (fun _ => none) none
        ((paginate 1000 (List.range 2500)).flatten)).events).map List.length
      = [500, 500, 500, 500, 500] ∧
    ((paginate 1000 (List.range 2500)).flatten = List.range 2500 ∧
     (execBatches (execmanyRun (500 : Int) (fun _ => none) none
        ((paginate 1000 (List.range 2500)).flatten)).events).flatten
       = List.range 2500 ∧
     (execBatches (execmanyRun (500 : Int) (fun _ => none) none
        ((paginate 1000 (List.range 2500)).flatten)).events).length
       = ((List.range 2500).length + 500 - 1) / 500) := by
  refine ⟨?_, ?_, ?_,
    c1_stream_transfer_batches (List.range 2500) 500 1000 (fun _ => none)
      (by decide) (by decide)⟩
  · rw [paginate_map_length 1000 (by decide) (List.range 2500), List.length_range]
    decide
  · rw [List.length_range]
  · rw [paginate_flatten 1000 (by decide) (List.range 2500)]
    rw [execmanyRun_none]
    show (execBatches ((bufLoop ((500 : Nat) : Int) [] (List.range 2500)).map
      DbEvent.exec ++ [DbEvent.commit])).map List.length = [500, 500, 500, 500, 500]
    rw [execBatches_of, execBatches_commit, execBatches_nil, List.append_nil]
    rw [bufLoop_map_length 500 (by decide) (List.range 2500) [] (by decide)]
    simp only [List.length_nil, List.length_range, Nat.zero_add]
    decide

/-- C8: the writer's total equals the per-batch credited sum, where each
batch is credited with the driver-reported rowcount when that is
non-negative and with the submitted batch length otherwise; in particular,
if the driver reports a negative rowcount (or none) for every batch, the
total equals the number of rows submitted. -/
theorem c8_rowcount_fallback {α : Type} (b : Int) (rc : Nat → Option Int)
    (rows : List α) :
    ((∀ j v, rc j = some v → v < 0) →
      (execmanyRun b rc none rows).total = (rows.length : Int)) ∧
    (execmanyRun b rc none rows).total = credits rc 0 (bufLoop b [] rows) ∧
    (∀ v : Int, 0 ≤ v → ∀ m : Nat, insertedFor (some v) m = v) := by
  refine ⟨?_, ?_, ?_⟩
  · intro hneg
    rw [execmanyRun_none]
    show credits rc 0 (bufLoop b [] rows) = (rows.length : Int)
    rw [credits_fallback rc hneg (bufLoop b [] rows) 0]
    rw [show ((bufLoop b [] rows).map List.length).sum
        = (bufLoop b [] rows).flatten.length from (List.length_flatten _).symm]
    rw [show (bufLoop b [] rows).flatten = rows from
      by simpa using bufLoop_flatten b rows []]
  · rw [execmanyRun_none]
  · intro v hv m
    simp only [insertedFor]
    rw [if_pos hv]

/-- C8 witness: three rows, batch size 2, driver reporting −1 for every
batch: the returned total is 3 (fallback to buffer lengths). -/
theorem c8_witness :
    (execmanyRun (2 : Int) (fun _ => some (-1)) none [(7 : Int), 8, 9]).total = 3 := by
  have h := (c8_rowcount_fallback (2 : Int) (fun _ => some (-1)) [(7 : Int), 8, 9]).1
    (fun j v hv => by rw [← Option.some.inj hv]; decide)
  rw [h]
  decide

/-- C4 counterexample: with a 5-row batch and the driver reporting 10
affected rows (e.g. a trigger), the credited count is 10, which exceeds the
number of rows submitted — refuting the claimed per-batch upper bound. -/
theorem c4_counterexample :
    (execmanyRun (5 : Int) (fun _ => some 10) none [(1 : Int), 2, 3, 4, 5]).total = 10
    ∧ ¬ (execmanyRun (5 : Int) (fun _ => some 10) none
        [(1 : Int), 2, 3, 4, 5]).total ≤ (([(1 : Int), 2, 3, 4, 5] : List Int).length : Int) := by
  exact ⟨by decide, by decide⟩

/-- C4 (amended): the credited total never exceeds the number of submitted
rows provided every driver-reported rowcount is at most the length of its
batch (in particular under the negative/None fallback); a non-negative
reported count is taken as-is, so a count larger than the batch (triggers)
is credited in full and the bound fails, as the counterexample shows. -/
theorem c4_inserted_bound {α : Type} (n : Nat) (rc : Nat → Option Int)
    (rows : List α)
    (hrc : ∀ j, j < (bufLoop (n : Int) [] rows).length → ∀ v, rc j = some v →
      v ≤ (((bufLoop (n : Int) [] rows).getD j []).length : Int)) :
    (execmanyRun (n : Int) rc none rows).total ≤ (rows.length : Int) := by
  rw [execmanyRun_none]
  show credits rc 0 (bufLoop (n : Int) [] rows) ≤ (rows.length : Int)
  have h1 := credits_le rc (bufLoop (n : Int) [] rows) 0 (by simpa using hrc)
  rw [show ((bufLoop (n : Int) [] rows).map List.length).sum
      = (bufLoop (n : Int) [] rows).flatten.length from (List.length_flatten _).symm]
    at h1
  rw [show (bufLoop (n : Int) [] rows).flatten = rows from
    by simpa using bufLoop_flatten (n : Int) rows []] at h1
  exact h1

/-- C4 witness: batch size 2, three rows, driver reporting 0 per batch:
the total is bounded by the number of submitted rows. -/
theorem c4_witness :
    (execmanyRun (2 : Int) (fun _ => some 0) none [(1 : Int), 2, 3]).total
      ≤ (([(1 : Int), 2, 3] : List Int).length : Int) :=
  c4_inserted_bound 2 (fun _ => some 0) [(1 : Int), 2, 3]
    (fun j hj v hv => by rw [← Option.some.inj hv]; exact Int.natCast_nonneg _)

/-- C3 counterexample: batch size 1, rows [0, 1], second executemany
raises. The first batch was submitted, but the destination has committed
nothing, because `_mssql_execmany` issues its single commit only after all
batches — refuting per-batch commit for the streaming/fetch-all writer. -/
theorem c3_counterexample :
    (execmanyRun (1 : Int) (fun _ => none) (some 1) [(0 : Int), 1]).ok = false ∧
    execBatches (execmanyRun (1 : Int) (fun _ => none) (some 1)
      [(0 : Int), 1]).events = [[0]] ∧
    committedRows (execmanyRun (1 : Int) (fun _ => none) (some 1)
      [(0 : Int), 1]).events = [] := by
  exact ⟨by decide, by decide, by decide⟩

/-- C3 (amended): one commit is issued per `_mssql_execmany` call, covering
all of that call's batches. The row-by-row strategy calls the writer once
per buffered batch, so when call j fails its earlier batches stay
committed; the streaming and fetch-all strategies feed all rows to a single
call, so a failure in any batch loses every earlier batch of the job, and
only a completed call commits its rows (all of them). -/
theorem c3_commit_semantics {α : Type} (n : Nat) (rc : Nat → Option Int)
    (rows : List α) (j : Nat) (hb : 0 < n)
    (hj : j < (bufLoop (n : Int) [] rows).length) :
    committedRows (execmanyRun (n : Int) rc none rows).events = rows ∧
    committedRows (execmanyRun (n : Int) rc (some j) rows).events = [] ∧
    committedRows (fetchoneRun (n : Int) rc (some j) rows).events
      = ((bufLoop (n : Int) [] rows).take j).flatten := by
  refine ⟨?_, ?_, ?_⟩
  · rw [execmanyRun_none]
    show committedRows ((bufLoop (n : Int) [] rows).map DbEvent.exec
      ++ [DbEvent.commit]) = rows
    rw [committedRows_exec_commit]
    simpa using bufLoop_flatten (n : Int) rows []
  · unfold execmanyRun
    rw [execmanyGo_fail (n : Int) rc j rows [] 0 0 [] (by omega)
      (by simpa using hj)]
    show committedRows ([] ++ ((bufLoop (n : Int) [] rows).take (j - 0)).map
      DbEvent.exec) = []
    rw [List.nil_append]
    exact committedGo_no_commit _ [] []
  · unfold fetchoneRun
    rw [fetchoneGo_fail n rc j (bufLoop (n : Int) [] rows) 0 0 []
      (bufLoop_shape n rows [] (by simpa using hb)) (by omega)
      (by simpa using hj)]
    show committedRows ([] ++ (((bufLoop (n : Int) [] rows).take (j - 0)).map
      fun ch => [DbEvent.exec ch, DbEvent.commit]).flatten)
      = ((bufLoop (n : Int) [] rows).take j).flatten
    rw [List.nil_append, Nat.sub_zero]
    unfold committedRows
    have hp := committedGo_pairs ((bufLoop (n : Int) [] rows).take j) [] []
    rw [List.append_nil] at hp
    rw [hp]
    rfl

/-- C3 witness: batch size 2, four rows, failure at the second batch:
the completed run commits all rows; the one-call writer commits nothing;
the row-by-row writer keeps the first batch committed. -/
theorem c3_witness :
    committedRows (execmanyRun (2 : Int) (fun _ => none) none
      [(10 : Int), 20, 30, 40]).events = [10, 20, 30, 40] ∧
    committedRows (execmanyRun (2 : Int) (fun _ => none) (some 1)
      [(10 : Int), 20, 30, 40]).events = [] ∧
    committedRows (fetchoneRun (2 : Int) (fun _ => none) (some 1)
      [(10 : Int), 20, 30, 40]).events
      = ((bufLoop (2 : Int) [] [(10 : Int), 20, 30, 40]).take 1).flatten :=
  c3_commit_semantics 2 (fun _ => none) [(10 : Int), 20, 30, 40] 1
    (by decide) (by decide)

theorem waitForStableCount_ne_timeout_none (sample : Nat → Int)
    (stableFor interval maxWait : Nat) :
    ∀ fuel, waitForStableCount sample stableFor interval maxWait fuel
      ≠ .timeout none := by
  intro fuel
  unfold waitForStableCount
  cases fuel with
  | zero =>
    rw [waitAux_zero sample stableFor interval maxWait 0 none 0 0 (by omega)]
    simp
  | succ f =>
    rw [waitAux_succ sample stableFor interval maxWait f 0 none 0 0 (by omega)]
    rw [if_neg (by simp)]
    exact waitAux_ne_timeout_none sample stableFor interval maxWait f (0 + 1)
      (sample 0) 0 (0 + interval)

/-- C2 counterexample: the sample sequence 7, 7, 7, 15, 15, ... becomes
constant at 15 after 3 samples and stays constant (far longer than the
2-second stability window at 1-second polls, with ample max wait), yet the
gate returns 7 — it stabilizes on the prefix run before reaching the
constant region — refuting the claim for arbitrary such sequences. -/
theorem c2_counterexample :
    (∀ i, 3 ≤ i → (fun i => if i < 3 then (7 : Int) else 15) i = 15) ∧
    waitForStableCount (fun i => if i < 3 then (7 : Int) else 15) 2 1 100 50
      = .stable 7 2 ∧
    (7 : Int) ≠ 15 := by
  refine ⟨fun i hi => ?_, by decide, by decide⟩
  show (if i < 3 then (7 : Int) else 15) = 15
  rw [if_neg (by omega)]

/-- C2 (amended): if consecutive samples are pairwise distinct before the
constant region (so no prefix run can satisfy the stability window early)
and the samples are constant at V from index k on, then with positive poll
interval and stability window, m the least number of polls whose
accumulated time reaches the window, max wait at least (k+m)·interval and
sufficient fuel, the gate returns V, at sample index k+m. -/
theorem c2_stability_gate_returns_constant (sample : Nat → Int) (V : Int)
    (k m stableFor interval maxWait fuel : Nat)
    (hint : 0 < interval) (hsf : 0 < stableFor)
    (hconst : ∀ j, k ≤ j → sample j = V)
    (hpre : ∀ j, j < k → sample j ≠ sample (j + 1))
    (hm1 : stableFor ≤ m * interval)
    (hm2 : ∀ q, 1 ≤ q → q < m → ¬ stableFor ≤ q * interval)
    (hmax : (k + m) * interval ≤ maxWait)
    (hfuel : k + m + 1 ≤ fuel) :
    waitForStableCount sample stableFor interval maxWait fuel
      = .stable V (k + m) := by
  have hm0 : 1 ≤ m := by
    rcases Nat.eq_zero_or_pos m with h | h
    · subst h
      simp only [Nat.zero_mul] at hm1
      omega
    · exact h
  have emk : (k + m) * interval = k * interval + m * interval :=
    Nat.add_mul k m interval
  have emk1 : (k + 1) * interval = k * interval + interval :=
    Nat.succ_mul k interval
  have emm : m * interval = (m - 1) * interval + interval := by
    conv_lhs => rw [show m = (m - 1) + 1 from by omega]
    exact Nat.succ_mul (m - 1) interval
  have hkmono : k * interval ≤ (k + m) * interval :=
    Nat.mul_le_mul_right interval (by omega)
  unfold waitForStableCount
  have hwalk := waitAux_walk sample stableFor interval maxWait (k + 1)
    (by omega) fuel 0 none (by omega)
    (by rw [show 0 + (k + 1) - 1 = k from by omega]; omega)
    (by simp)
    (by intro j hj1 hj2
        have := hpre (j - 1) (by omega)
        rw [show j - 1 + 1 = j from by omega] at this
        exact fun h => this h.symm)
  rw [Nat.zero_mul] at hwalk
  rw [show (0 : Nat) + (k + 1) = k + 1 from by omega] at hwalk
  rw [show k + 1 - 1 = k from by omega] at hwalk
  rw [hwalk]
  rw [hconst k le_rfl]
  have hstab := waitAux_stab sample stableFor interval maxWait V m hm0
    (fuel - (k + 1)) (k + 1) 0 ((k + 1) * interval)
    (by omega)
    (by omega)
    (fun j hj => hconst j (by omega))
    (by omega)
    (by intro q h1 h2
        have := hm2 q h1 h2
        omega)
  rw [hstab]
  congr 1
  omega

/-- C2 witness: scenario B. Samples 10, 12, 15, 15, 15, ... at 1-second
polls with a 2-second stability window: the gate returns 15 while
processing the 5th sample (index 4). -/
theorem c2_witness :
    waitForStableCount (fun i => if i = 0 then 10 else if i = 1 then 12 else 15)
      2 1 600 600 = .stable 15 4 :=
  c2_stability_gate_returns_constant
    (fun i => if i = 0 then 10 else if i = 1 then 12 else 15) 15 2 2 2 1 600 600
    (by decide) (by decide)
    (fun j hj => by
      show (if j = 0 then (10 : Int) else if j = 1 then 12 else 15) = 15
      rw [if_neg (by omega), if_neg (by omega)])
    (by decide) (by decide) (by decide) (by decide) (by decide)

/-- C5: with a positive poll interval, if the count changes on every poll
until max wait elapses (N = floor(maxWait/interval) is the last poll
index, characterized by the two bounds), the gate falls out of the loop
and returns the last sampled count; and the gate can never produce the
"no sample" outcome (`timeout none`), since the very first poll records a
sample. -/
theorem c5_timeout_returns_last (sample : Nat → Int)
    (stableFor interval maxWait N fuel : Nat)
    (hint : 0 < interval)
    (hN1 : N * interval ≤ maxWait) (hN2 : maxWait < (N + 1) * interval)
    (hchg : ∀ j, j < N → sample (j + 1) ≠ sample j)
    (hfuel : N + 1 ≤ fuel) :
    waitForStableCount sample stableFor interval maxWait fuel
      = .timeout (some (sample N)) ∧
    (∀ fuel2, waitForStableCount sample stableFor interval maxWait fuel2
      ≠ .timeout none) := by
  refine ⟨?_, waitForStableCount_ne_timeout_none sample stableFor interval maxWait⟩
  unfold waitForStableCount
  have hwalk := waitAux_walk sample stableFor interval maxWait (N + 1)
    (by omega) fuel 0 none (by omega)
    (by rw [show 0 + (N + 1) - 1 = N from by omega]; omega)
    (by simp)
    (by intro j hj1 hj2
        have := hchg (j - 1) (by omega)
        rw [show j - 1 + 1 = j from by omega] at this
        exact this)
  rw [Nat.zero_mul] at hwalk
  rw [show (0 : Nat) + (N + 1) = N + 1 from by omega] at hwalk
  rw [show N + 1 - 1 = N from by omega] at hwalk
  rw [hwalk]
  exact waitAux_timeout sample stableFor interval maxWait (fuel - (N + 1)) (N + 1)
    (some (sample N)) 0 ((N + 1) * interval) (by omega)

/-- C5 witness: strictly increasing counts with interval 1 and max wait 3:
polls happen at waited = 0, 1, 2, 3; the gate returns the 4th sample
(index 3), not the "no sample" outcome. -/
theorem c5_witness :
    waitForStableCount (fun i => (i : Int)) 60 1 3 10 = .timeout (some 3) ∧
    waitForStableCount (fun i => (i : Int)) 60 1 3 10 ≠ .timeout none := by
  have h := c5_timeout_returns_last (fun i => (i : Int)) 60 1 3 3 10
    (by decide) (by decide) (by decide)
    (fun j hj => by
      show ((j + 1 : Nat) : Int) ≠ ((j : Nat) : Int)
      omega)
    (by decide)
  exact ⟨h.1, h.2 10⟩

/-- C10: with poll interval ≥ 1 the loop answers within
floor(maxWait/interval) + 1 samples — fuel N+1 never yields the diverge
marker when maxWait < (N+1)·interval, i.e. when N is at least the floor;
with poll interval 0 and a count that changes on every sample, the loop
never returns no matter how much fuel it is given — it does not terminate. -/
theorem c10_termination :
    (∀ (sample : Nat → Int) (stableFor interval maxWait N : Nat),
      1 ≤ interval → maxWait < (N + 1) * interval →
      waitForStableCount sample stableFor interval maxWait (N + 1) ≠ .diverge) ∧
    (∀ (sample : Nat → Int) (stableFor maxWait : Nat),
      (∀ j, sample (j + 1) ≠ sample j) →
      ∀ fuel, waitForStableCount sample stableFor 0 maxWait fuel = .diverge) := by
  constructor
  · intro sample stableFor interval maxWait N hint hN
    unfold waitForStableCount
    exact waitAux_ne_diverge sample stableFor interval maxWait (N + 1) 0 none 0 0
      (by omega)
  · intro sample stableFor maxWait hchg fuel
    unfold waitForStableCount
    exact waitAux_diverge_zero_interval sample stableFor maxWait hchg fuel 0 none 0 0
      (by omega) (by simp)

/-- C10 witness: a constant count with interval 1 and max wait 3 finishes
within 4 samples; an ever-changing count with interval 0 diverges (shown
here at fuel 5, and by the theorem at every fuel). -/
theorem c10_witness :
    waitForStableCount (fun _ => (5 : Int)) 60 1 3 4 ≠ .diverge ∧
    waitForStableCount (fun i => (i : Int)) 60 0 3 5 = .diverge :=
  ⟨c10_termination.1 (fun _ => (5 : Int)) 60 1 3 3 (by decide) (by decide),
   c10_termination.2 (fun i => (i : Int)) 60 3
     (fun j => by
       show ((j + 1 : Nat) : Int) ≠ ((j : Nat) : Int)
       omega) 5⟩

/-- C6: whenever the select statement still contains the reserved
triple-pipe placeholder, each of the three transfer entry points aborts
with the configuration error, performing none of its phases — no session
statement, no preview, no stability poll, no read and no write (each entry
point checks the marker before any of these). -/
theorem c6_placeholder_aborts (s : String) (previewN : Nat)
    (chunkSize batchSize : Int) (previewFails : Bool)
    (h : hasMarker s = true) :
    transferModel s previewN chunkSize batchSize previewFails
      = .error .unresolvedPlaceholder ∧
    transferFetchallModel s previewN batchSize previewFails
      = .error .unresolvedPlaceholder ∧
    transferFetchoneModel s previewN batchSize previewFails
      = .error .unresolvedPlaceholder := by
  refine ⟨?_, ?_, ?_⟩ <;>
    simp [transferModel, transferFetchallModel, transferFetchoneModel, h]

/-- C6 witness: a select statement with an unresolved placeholder makes the
streaming entry point abort with the configuration error. -/
theorem c6_witness :
    hasMarker ("SELECT * FROM t WHERE id = |||JOB_ID|||") = true ∧
    transferModel ("SELECT * FROM t WHERE id = |||JOB_ID|||") 10 5000 1000 false
      = .error .unresolvedPlaceholder :=
  ⟨by decide,
   (c6_placeholder_aborts ("SELECT * FROM t WHERE id = |||JOB_ID|||") 10 5000 1000
     false (by decide)).1⟩

/-- C9: for every marker-free statement, each entry point runs the bounded
preview — the stripped statement with the hard row limit appended — before
the stability poll and the read/write phases, and it does so whether or not
the preview raises: a preview failure is logged and never aborts the
transfer. -/
theorem c9_preview_never_aborts (s : String) (previewN : Nat)
    (chunkSize batchSize : Int) (pf : Bool) (h : hasMarker s = false) :
    transferModel s previewN chunkSize batchSize pf
      = .ok [.sessionSetup, .sessionDiag ("pre-select"),
          .preview (previewSql s previewN) pf,
          .stablePoll, .streamRead, .batchWrite, .sessionDiag ("post-insert")] ∧
    transferFetchallModel s previewN batchSize pf
      = .ok [.sessionSetup, .sessionDiag ("pre-select"),
          .preview (previewSql s previewN) pf,
          .stablePoll, .bulkRead, .batchWrite, .sessionDiag ("post-insert")] ∧
    transferFetchoneModel s previewN batchSize pf
      = .ok [.sessionSetup, .sessionDiag ("pre-select"),
          .preview (previewSql s previewN) pf,
          .stablePoll, .rowRead, .batchWrite, .sessionDiag ("post-insert")] := by
  refine ⟨?_, ?_, ?_⟩ <;>
    simp [transferModel, transferFetchallModel, transferFetchoneModel, h]

/-- C9 witness: a concrete transfer whose preview raises still proceeds
through stabilization, read and write; the preview statement is the
stripped select plus the 10-row limit. -/
theorem c9_witness :
    transferModel ("SELECT a FROM t;") 10 5000 1000 true
      = .ok [.sessionSetup, .sessionDiag ("pre-select"),
          .preview (previewSql ("SELECT a FROM t;") 10) true,
          .stablePoll, .streamRead, .batchWrite, .sessionDiag ("post-insert")] ∧
    previewSql ("SELECT a FROM t;") 10 = ("SELECT a FROM t LIMIT 10") :=
  ⟨(c9_preview_never_aborts ("SELECT a FROM t;") 10 5000 1000 true (by decide)).1,
   by decide⟩

/-- C7 counterexample: with chunk size 0 and batch size 0 (both
non-positive) and a marker-free statement, the streaming entry point raises
no configuration error and proceeds through all phases, and the writer
executes an insert batch — refuting "raises a fatal configuration error
before any connection work; no read or insert is attempted". -/
theorem c7_counterexample :
    transferModel ("SELECT id FROM t") 10 0 0 false
      = .ok [.sessionSetup, .sessionDiag ("pre-select"),
          .preview (previewSql ("SELECT id FROM t") 10) false,
          .stablePoll, .streamRead, .batchWrite, .sessionDiag ("post-insert")] ∧
    (execmanyRun (0 : Int) (fun _ => none) none [(7 : Int)]).events
      = [.exec [7], .commit] := by
  exact ⟨by rfl, by decide⟩

/-- C7 (amended): the entry points validate only the placeholder; chunk and
batch sizes are not checked, so a transfer with non-positive sizes proceeds
normally, and a non-positive batch size makes the writer flush after every
row — the destination receives one single-row insert batch per source row. -/
theorem c7_no_size_validation {α : Type} (s : String) (previewN : Nat)
    (chunkSize batchSize : Int) (pf : Bool) (rc : Nat → Option Int)
    (rows : List α) (h : hasMarker s = false) (hbs : batchSize ≤ 0) :
    (∃ steps, transferModel s previewN chunkSize batchSize pf = .ok steps) ∧
    execBatches (execmanyRun batchSize rc none rows).events
      = rows.map (fun r => [r]) := by
  constructor
  · exact ⟨[.sessionSetup, .sessionDiag ("pre-select"),
      .preview (previewSql s previewN) pf,
      .stablePoll, .streamRead, .batchWrite, .sessionDiag ("post-insert")],
      by simp [transferModel, h]⟩
  · rw [execmanyRun_none]
    show execBatches ((bufLoop batchSize [] rows).map DbEvent.exec
      ++ [DbEvent.commit]) = rows.map (fun r => [r])
    rw [execBatches_of, execBatches_commit, execBatches_nil, List.append_nil]
    exact bufLoop_nonpos batchSize hbs rows

/-- C7 witness: chunk size −3 and batch size 0 are accepted without error
and the two source rows are inserted as two single-row batches. -/
theorem c7_witness :
    (∃ steps, transferModel ("SELECT x FROM t") 10 (-3) 0 false = .ok steps) ∧
    execBatches (execmanyRun (0 : Int) (fun _ => none) none
      [(5 : Int), 6]).events = [[5], [6]] := by
  have h := c7_no_size_validation ("SELECT x FROM t") 10 (-3) 0 false
    (fun _ => none) [(5 : Int), 6] (by decide) (by decide)
  exact ⟨h.1, by rw [h.2]; rfl⟩

end ETL
